import Mathlib

/-!
A verification development for the wisemonk channel monitor.

The repository carries two near-duplicate revisions of `main.go`; the unit
tests exercise the later revision (the one with `searchDiscourse`, the
per-channel `Interval` field and the negative-duration check), so that
revision is the one embedded here.  Go machine integers (`int64`
nanosecond durations, Unix-second timestamps) are modelled as `Int`/`Nat`
with the explicit `2^63` bounds checked exactly where the Go code checks
them.  Strings handled character-wise by the Go code (titles, command
text) are modelled as `List Char`; opaque message payloads stay `String`.
External collaborators (Slack transport, Discourse HTTP calls) appear as
oracle parameters: the embedded functions return the outbound texts they
would send instead of performing I/O.
-/

/-- One activity bucket: `Bucket` from main.go (a Unix-second timestamp,
a message count and the stored transcript lines). -/
structure Bucket where
  utime : Int
  count : Nat
  msgs : List String
deriving DecidableEq

/-- The comparison used by `ByTimestamp.Less` in main.go (`a[i].utime < a[j].utime`);
the Go sort produces a sequence nondecreasing in `utime`, modelled here with a
deterministic sort by the reflexive closure of that order. -/
def bucketLe (a b : Bucket) : Prop := a.utime ≤ b.utime

instance : DecidableRel bucketLe := fun a b => inferInstanceAs (Decidable (a.utime ≤ b.utime))

instance : IsTotal Bucket bucketLe := ⟨fun a b => Int.le_total a.utime b.utime⟩

instance : IsTrans Bucket bucketLe := ⟨fun _ _ _ hab hbc => le_trans hab hbc⟩

/-- The predicate of the scan loop in `Counter.Count`: `b.utime > timeSince`. -/
def inWindow (timeSince : Int) (b : Bucket) : Bool := decide (timeSince < b.utime)

/-- The index the loop in `Counter.Count` computes: the index of the first
bucket satisfying `p`, or `none` when no bucket does (in which case the Go
variable `idx` keeps its initial value 0). -/
def goFindIdx (p : Bucket → Bool) : List Bucket → Option Nat
  | [] => none
  | b :: bs => if p b then some 0 else (goFindIdx p bs).map (· + 1)

/-- The summation loop at the end of `Counter.Count`. -/
def sumCounts (bs : List Bucket) : Nat := bs.foldl (fun acc b => acc + b.count) 0

/-- `Counter.Count` from main.go: sort the buckets by timestamp, find the first
bucket strictly inside the window, left-shift the surviving buckets over the
older ones (a `drop` of the first `idx` elements; when no bucket is inside the
window `idx` stays 0 and nothing is discarded), and return the sum of the
surviving counts.  The mutated bucket slice is returned alongside the count. -/
def Counter.Count (bs : List Bucket) (timeSince : Int) : List Bucket × Nat :=
  let sorted := bs.insertionSort bucketLe
  let idx := (goFindIdx (inWindow timeSince) sorted).getD 0
  let kept := sorted.drop idx
  (kept, sumCounts kept)

/-- The backwards scan of `Counter.Increment`: walking the bucket slice from
its end, bump the first bucket found with the given timestamp (increment its
count, append the message); `none` when no bucket has that timestamp.
Preferring a match in the tail models the Go loop running from the last
index towards the first. -/
def updateLast (ts : Int) (m : String) : List Bucket → Option (List Bucket)
  | [] => none
  | b :: bs =>
    match updateLast ts m bs with
    | some bs2 => some (b :: bs2)
    | none =>
      if b.utime = ts then
        some ({ b with count := b.count + 1, msgs := b.msgs ++ [m] } :: bs)
      else none

/-- `Counter.Increment` from main.go: merge the formatted message into the
bucket carrying its timestamp, or append a fresh bucket with count 1. -/
def Counter.Increment (bs : List Bucket) (ts : Int) (m : String) : List Bucket :=
  match updateLast ts m bs with
  | some bs2 => bs2
  | none => bs ++ [⟨ts, 1, [m]⟩]

/-- The timestamps present in a store (specification-side shorthand). -/
def utimes (bs : List Bucket) : List Int := bs.map Bucket.utime

/-- Specification-side invariant: at most one bucket per distinct timestamp. -/
def OneBucketPerTs (bs : List Bucket) : Prop := (utimes bs).Nodup

/-- Specification-side description of an in-place merge: bump the bucket(s)
holding timestamp `ts`, leave every other bucket untouched. -/
def bumpAt (ts : Int) (m : String) (bs : List Bucket) : List Bucket :=
  bs.map fun b =>
    if b.utime = ts then { b with count := b.count + 1, msgs := b.msgs ++ [m] } else b

/-- Go byte-level digit test, `'0' <= c && c <= '9'` (ASCII). -/
def isDigitCh (c : Char) : Bool := 48 ≤ c.toNat && c.toNat ≤ 57

/-- Numeric value of a decimal digit character, `c - '0'`. -/
def digitVal (c : Char) : Nat := c.toNat - 48

/-- The `strings.Trim(title, " ")` call of `sanitizeTitle`: strip leading and
trailing space characters (only spaces, exactly what the Go call does). -/
def goTrimSpaces (s : List Char) : List Char :=
  ((s.dropWhile (· == ' ')).reverse.dropWhile (· == ' ')).reverse

/-- The `strings.LastIndex(t, " ")` call of `sanitizeTitle`: index of the last
space character, `none` for the Go result -1. -/
def lastSpaceIdx : List Char → Option Nat
  | [] => none
  | c :: rest =>
    match lastSpaceIdx rest with
    | some i => some (i + 1)
    | none => if c = ' ' then some 0 else none

/-- `sanitizeTitle` from main.go: trim spaces; under 20 characters, prepend the
fixed prefix; over 100 characters, cut to 100; then, unconditionally, cut at
the last space when that space sits at index 20 or later. -/
def sanitizeTitle (title : List Char) : List Char :=
  let t := goTrimSpaces title
  if t.length < 20 then "Topic created by wisemonk with title: ".toList ++ t
  else
    let t2 := if t.length > 100 then t.take 100 else t
    match lastSpaceIdx t2 with
    | some idx => if 20 ≤ idx then t2.take idx else t2
    | none => t2

/-- The literal head of `meditateRegex` (`wisemonk meditate for (.+)`). -/
def meditateLit : List Char := "wisemonk meditate for ".toList

/-- The literal head of `createRegex` (`wisemonk create topic (.+)`). -/
def createLit : List Char := "wisemonk create topic ".toList

/-- The literal head of `queryRegex` (`wisemonk query (.+) (\d)`). -/
def queryLit : List Char := "wisemonk query ".toList

/-- A trailing greedy `(.+)` group: the maximal nonempty run of non-newline
characters, `none` when the next character is a newline or the end. -/
def dotPlus (s : List Char) : Option (List Char) :=
  let run := s.takeWhile (fun c => c != '\n')
  if run.isEmpty then none else some run

/-- `FindStringSubmatch` for a pattern `LIT(.+)`: scan start positions left to
right; at the first occurrence of the literal followed by at least one
non-newline character, capture the maximal run (leftmost match, greedy group). -/
def findCapture (lit : List Char) : List Char → Option (List Char)
  | [] => none
  | s@(_ :: rest) =>
    if lit.isPrefixOf s then
      match dotPlus (s.drop lit.length) with
      | some cap => some cap
      | none => findCapture lit rest
    else findCapture lit rest

/-- `meditateRegex.FindStringSubmatch`, reduced to the captured duration text. -/
def meditateFind (s : List Char) : Option (List Char) := findCapture meditateLit s

/-- `createRegex.FindStringSubmatch`, reduced to the captured title text. -/
def createFind (s : List Char) : Option (List Char) := findCapture createLit s

/-- The backtracking search for `(.+) (\d)` after the query literal: the
largest index `j ≥ 1` (greedy first group) such that position `j` holds a
space and position `j+1` holds a digit; returns that index and the digit.
The recursion tries the deeper (larger-index) candidate first. -/
def lastSpaceDigitAux : List Char → Nat → Option (Nat × Char)
  | [], _ => none
  | [_], _ => none
  | c1 :: c2 :: rest, i =>
    match lastSpaceDigitAux (c2 :: rest) (i + 1) with
    | some r => some r
    | none =>
      if c1 = ' ' ∧ isDigitCh c2 ∧ 1 ≤ i then some (i, c2) else none

/-- Matching `(.+) (\d)` against the text following the query literal.  Every
candidate lies inside the maximal non-newline run (the dot excludes newlines
and the space and digit are themselves non-newline). -/
def querySplit (r : List Char) : Option (List Char × Char) :=
  let run := r.takeWhile (fun c => c != '\n')
  match lastSpaceDigitAux run 0 with
  | some jd => some (run.take jd.1, jd.2)
  | none => none

/-- `queryRegex.FindStringSubmatch`, reduced to the two captures: leftmost
start position wins, and at a given start the first group is greedy. -/
def queryFind : List Char → Option (List Char × Char)
  | [] => none
  | s@(_ :: rest) =>
    if queryLit.isPrefixOf s then
      match querySplit (s.drop queryLit.length) with
      | some r => some r
      | none => queryFind rest
    else queryFind rest

/-- `strconv.Atoi`: optional sign, at least one digit, nothing else, value
within the signed 64-bit range; `none` models the error return. -/
def goAtoi (s : List Char) : Option Int :=
  let signed : Bool × List Char :=
    match s with
    | c :: rest =>
      if c = '-' then (true, rest)
      else if c = '+' then (false, rest)
      else (false, c :: rest)
    | [] => (false, [])
  let neg := signed.1
  let ds := signed.2
  if ds = [] then none
  else if ds.all isDigitCh then
    let n := ds.foldl (fun acc c => acc * 10 + digitVal c) 0
    if neg then
      if n ≤ 9223372036854775808 then some (-(n : Int)) else none
    else
      if n ≤ 9223372036854775807 then some (n : Int) else none
  else none

/-- `leadingInt` from Go package time: consume leading decimal digits into a
64-bit accumulator, failing on overflow past `2^63` exactly as Go does. -/
def goLeadingIntAux : Nat → List Char → Option (Nat × List Char)
  | x, [] => some (x, [])
  | x, c :: rest =>
    if isDigitCh c then
      if x > 922337203685477580 then none
      else
        let y := x * 10 + digitVal c
        if y > 9223372036854775808 then none
        else goLeadingIntAux y rest
    else some (x, c :: rest)

/-- `leadingFraction` from Go package time: consume digits after the decimal
point, silently stopping the accumulation (but still consuming input) once
the value would overflow; returns the digits value, the power-of-ten scale
and the rest of the input. -/
def goLeadingFracAux : Nat → Nat → Bool → List Char → Nat × Nat × List Char
  | x, scale, _, [] => (x, scale, [])
  | x, scale, overflow, c :: rest =>
    if isDigitCh c then
      if overflow then goLeadingFracAux x scale overflow rest
      else if x > 922337203685477580 then goLeadingFracAux x scale true rest
      else
        let y := x * 10 + digitVal c
        if y > 9223372036854775808 then goLeadingFracAux x scale true rest
        else goLeadingFracAux y (scale * 10) false rest
    else (x, scale, c :: rest)

/-- The unit table of `time.ParseDuration`, in nanoseconds. -/
def durUnitNs (u : List Char) : Option Nat :=
  if u = ['n', 's'] then some 1
  else if u = ['u', 's'] then some 1000
  else if u = ['µ', 's'] then some 1000
  else if u = ['μ', 's'] then some 1000
  else if u = ['m', 's'] then some 1000000
  else if u = ['s'] then some 1000000000
  else if u = ['m'] then some 60000000000
  else if u = ['h'] then some 3600000000000
  else none

/-- A character that terminates a unit token in `time.ParseDuration`
(the Go loop breaks on `'.'` and on digits). -/
def notNumStart (c : Char) : Bool := !(c == '.' || isDigitCh c)

/-- The component loop of `time.ParseDuration`: repeatedly consume
`[0-9]*(\.[0-9]*)?unit`, accumulating nanoseconds with the same `2^63`
overflow checks Go performs.  Every successful round consumes at least one
character, so `length + 1` fuel always suffices; exhausted fuel yields the
error case.  The one deliberate approximation: Go adds the fractional part
via `float64` arithmetic, modelled here by the exact floor `f * unit / scale`
(sub-nanosecond rounding of fractional components is the only difference,
and no claim exercises it). -/
def parseLoop : Nat → Nat → List Char → Option Nat
  | 0, _, _ => none
  | _ + 1, d, [] => some d
  | fuel + 1, d, s@(c :: _) =>
    if !(c == '.' || isDigitCh c) then none
    else
      match goLeadingIntAux 0 s with
      | none => none
      | some (v, s1) =>
        let pre : Bool := s1.length != s.length
        let fPart : Nat × Nat × List Char × Bool :=
          match s1 with
          | '.' :: rest =>
            let r := goLeadingFracAux 0 1 false rest
            (r.1, r.2.1, r.2.2, decide (r.2.2.length ≠ rest.length))
          | _ => (0, 1, s1, false)
        let f := fPart.1
        let scale := fPart.2.1
        let s2 := fPart.2.2.1
        let post := fPart.2.2.2
        if !pre && !post then none
        else
          let uchars := s2.takeWhile notNumStart
          let s3 := s2.drop uchars.length
          if uchars.length = 0 then none
          else
            match durUnitNs uchars with
            | none => none
            | some unit =>
              if v > 9223372036854775808 / unit then none
              else
                let v1 := v * unit
                let v2 := if f > 0 then v1 + f * unit / scale else v1
                if f > 0 ∧ v2 > 9223372036854775808 then none
                else
                  let d1 := d + v2
                  if d1 > 9223372036854775808 then none
                  else parseLoop fuel d1 s3

/-- `time.ParseDuration`: optional sign, the special case `"0"`, then the
component loop; a negative result may reach `-2^63` while a positive one is
capped at `2^63 - 1`, as in Go.  `none` models the error return. -/
def parseGoDuration (s0 : List Char) : Option Int :=
  let signed : Bool × List Char :=
    match s0 with
    | '-' :: rest => (true, rest)
    | '+' :: rest => (false, rest)
    | _ => (false, s0)
  let neg := signed.1
  let s := signed.2
  if s = ['0'] then some 0
  else if s = [] then none
  else
    match parseLoop (s.length + 1) 0 s with
    | none => none
    | some d =>
      if neg then some (-(d : Int))
      else if d > 9223372036854775807 then none
      else some (d : Int)

/-- `fmtInt` from Go package time: decimal digits of `u` (just `"0"` for 0). -/
def fmtInt (u : Nat) : List Char := Nat.toDigits 10 u

/-- `fmtFrac` from Go package time: the fractional part to `prec` digits with
trailing zeros omitted (empty when all digits are zero, otherwise a dot
followed by the digits), plus the remaining integer value. -/
def fmtFracAux : Nat → Nat → Bool → List Char → List Char × Nat
  | u, 0, show0, acc => ((if show0 then '.' :: acc else acc), u)
  | u, prec + 1, show0, acc =>
    let digit := u % 10
    let show1 := show0 || decide (digit ≠ 0)
    let acc1 := if show1 then Char.ofNat (48 + digit) :: acc else acc
    fmtFracAux (u / 10) prec show1 acc1

/-- `Duration.String` from Go package time: `"0s"`, `ns`/`µs`/`ms` forms below
one second, otherwise seconds (with fractional part), minutes and hours, with
a leading minus sign for negative durations. -/
def goDurationString (d : Int) : String :=
  let u := d.natAbs
  let core :=
    if u < 1000000000 then
      if u = 0 then "0s".toList
      else if u < 1000 then fmtInt u ++ ['n', 's']
      else if u < 1000000 then
        let fr := fmtFracAux u 3 false []
        fmtInt fr.2 ++ fr.1 ++ ['µ', 's']
      else
        let fr := fmtFracAux u 6 false []
        fmtInt fr.2 ++ fr.1 ++ ['m', 's']
    else
      let fr := fmtFracAux u 9 false []
      let secPart := fmtInt (fr.2 % 60) ++ fr.1 ++ ['s']
      let u2 := fr.2 / 60
      if u2 = 0 then secPart
      else
        let minPart := fmtInt (u2 % 60) ++ ['m'] ++ secPart
        let u3 := u2 / 60
        if u3 = 0 then minPart else fmtInt u3 ++ ['h'] ++ minPart
  String.mk (if d < 0 then '-' :: core else core)

/-- One hour in nanoseconds (`time.Hour`). -/
def hourNs : Int := 3600000000000

/-- The `%.0f` rendering of a duration in minutes used by the already-paused
reply: round half to even on the exact rational `d / 60e9` (Go rounds the
`float64` value of `Duration.Minutes`; no claim exercises this reply). -/
def fmtMinutes0f (d : Int) : String :=
  let n := d.natAbs
  let q := n / 60000000000
  let r := n % 60000000000
  let rounded :=
    if 2 * r < 60000000000 then q
    else if 2 * r > 60000000000 then q + 1
    else if q % 2 = 0 then q else q + 1
  (if d < 0 then "-" else "") ++ toString rounded

/-- What one `askToMeditate` call does: the reply text (empty when the message
is not a meditate command), the updated pause timestamp, and the delay of the
deferred bucket-clearing goroutine when one is launched. -/
structure MeditateOutcome where
  reply : String
  meditationEnd : Int
  clearAfter : Option Int
deriving DecidableEq

/-- `askToMeditate` from main.go, over absolute nanosecond clocks.  The state
it reads and writes is the pause timestamp `medEnd`; `SetMeditationEnd(d)`
becomes `nowNs + d`, and the spawned goroutine that clears the buckets after
`d` is reported as `clearAfter = some d`. -/
def askToMeditate (medEnd nowNs : Int) (text : List Char) : MeditateOutcome :=
  match meditateFind text with
  | none => ⟨"", medEnd, none⟩
  | some cap =>
    match parseGoDuration cap with
    | none => ⟨"Sorry, I don\x27t understand you.", medEnd, none⟩
    | some d =>
      if d < 0 then ⟨"Sorry, going back in time is not what I can do.", medEnd, none⟩
      else if hourNs ≤ d then
        ⟨"It\x27s hard to meditate for more than an hour at one go you know.", medEnd, none⟩
      else if 0 < medEnd - nowNs then
        ⟨"I am meditating. My meditation will finish in " ++
          fmtMinutes0f (medEnd - nowNs) ++ " mins", medEnd, none⟩
      else ⟨"Okay, I am going to meditate for " ++ goDurationString d, nowNs + d, some d⟩

/-- What one `searchDiscourse` call decides to do before talking to the
archive service: nothing (no key or no pattern match), the integer-parse
failure reply, or a search with the captured query and result bound. -/
inductive SearchAction where
  | noop : SearchAction
  | parseFail : SearchAction
  | search : List Char → Int → SearchAction
deriving DecidableEq

/-- The command-classification part of `searchDiscourse` from main.go: bail
out without a Discourse key, match `queryRegex`, and run `strconv.Atoi` on
the second capture, replying with the misunderstanding message on failure. -/
def searchDiscourse (discKey : String) (text : List Char) : SearchAction :=
  if discKey = "" then .noop
  else
    match queryFind text with
    | none => .noop
    | some qd =>
      match goAtoi [qd.2] with
      | none => .parseFail
      | some n => .search qd.1 n

/-- The external collaborators the dispatch loop calls through: the Discourse
key from the configuration, the text a completed search sends back (the HTTP
search and its formatting, collapsed to an oracle), and the URL `createTopic`
returns for a sanitized title (empty on failure). -/
structure Oracles where
  discKey : String
  searchOut : List Char → Int → String
  createUrl : List Char → String

/-- The outbound messages of one `searchDiscourse` call. -/
def searchMsgs (o : Oracles) (text : List Char) : List String :=
  match searchDiscourse o.discKey text with
  | .noop => []
  | .parseFail => ["Sorry, I didn\x27t understand you."]
  | .search q n => [o.searchOut q n]

/-- `createNewTopic` from main.go: with a Discourse key and a `createRegex`
match, create the topic from the sanitized title, set the buckets to nil and
announce the new URL; otherwise leave everything untouched. -/
def createOut (o : Oracles) (bs : List Bucket) (text : List Char) :
    List Bucket × List String :=
  if o.discKey = "" then (bs, [])
  else
    match createFind text with
    | none => (bs, [])
    | some title =>
      ([], ["New topic created with url: " ++ o.createUrl (sanitizeTitle title)])

/-- The result of handling one inbound message in `checkOrIncr`. -/
structure HandleResult where
  buckets : List Bucket
  meditationEnd : Int
  outbound : List String
  clearAfter : Option Int
deriving DecidableEq

/-- The message branch of `checkOrIncr` from main.go, in its source order:
`searchDiscourse`, then `createNewTopic`, then `askToMeditate` (sending the
reply when nonempty), then unconditionally `Increment` with the parsed
timestamp and formatted message line. -/
def handleMessage (o : Oracles) (bs : List Bucket) (medEnd nowNs : Int)
    (text : List Char) (ts : Int) (formatted : String) : HandleResult :=
  let sm := searchMsgs o text
  let bc := createOut o bs text
  let mo := askToMeditate medEnd nowNs text
  let mm := if mo.reply = "" then [] else [mo.reply]
  ⟨Counter.Increment bc.1 ts formatted, mo.meditationEnd,
    sm ++ bc.2 ++ mm, mo.clearAfter⟩

/-- The message `callYoda` composes: the yoda figure, one proverb and the
closing line, wrapped in a code fence. -/
def yodaMsg (yoda proverb m : String) : String :=
  "```" ++ yoda ++ "\n" ++ proverb ++ "\n" ++ m ++ "```"

/-- `callYoda` from main.go: set the buckets to nil and send exactly one
message.  The randomly chosen proverb is a parameter. -/
def callYoda (bs : List Bucket) (yoda proverb m : String) :
    List Bucket × List String :=
  ([], [yodaMsg yoda proverb m])

/-- `sendMessage` from main.go: without a Discourse key, go straight to
`callYoda` with the empty closing line; otherwise build the topic title from
the first message of the first bucket (Go panics when the store is empty,
modelled as `none`), create the topic, and close with the archive link only
when `createTopic` returned a nonempty URL. -/
def sendMessage (bs : List Bucket) (discKey : String)
    (createUrl : List Char → String) (yoda proverb : String) :
    Option (List Bucket × List String) :=
  if discKey = "" then some (callYoda bs yoda proverb "")
  else
    match bs with
    | [] => none
    | b :: _ =>
      match b.msgs with
      | [] => none
      | m0 :: _ =>
        let url := createUrl (sanitizeTitle m0.toList)
        let m := if url ≠ "" then "Please move your discussion to " ++ url else ""
        some (callYoda bs yoda proverb m)

/-- The ticker branch of `checkOrIncr` from main.go: only when the monk is not
meditating (`MeditationEnd() < 0`, a strictly-past pause timestamp) run
`Count` and, at or above the threshold, fire `sendMessage` (which clears the
store); the returned flag records whether a notification was fired.  The
nanosecond clock (`nowNs`) and the Unix-second window boundary (`timeSince`)
are the two views of the same instant that the Go code computes from
`time.Now()`. -/
def tick (bs : List Bucket) (medEnd nowNs timeSince : Int) (maxMsg : Nat) :
    (List Bucket × Int) × Bool :=
  if medEnd - nowNs < 0 then
    let r := Counter.Count bs timeSince
    if maxMsg ≤ r.2 then (([], medEnd), true)
    else ((r.1, medEnd), false)
  else ((bs, medEnd), false)

lemma utimes_cons (b : Bucket) (bs : List Bucket) :
    utimes (b :: bs) = b.utime :: utimes bs := rfl

lemma bumpAt_cons (ts : Int) (m : String) (b : Bucket) (tl : List Bucket) :
    bumpAt ts m (b :: tl) =
      (if b.utime = ts then { b with count := b.count + 1, msgs := b.msgs ++ [m] } else b)
        :: bumpAt ts m tl := rfl

lemma updateLast_of_not_mem (ts : Int) (m : String) :
    ∀ bs : List Bucket, ts ∉ utimes bs → updateLast ts m bs = none := by
  intro bs
  induction bs with
  | nil => intro _; rfl
  | cons b tl ih =>
    intro h
    rw [utimes_cons, List.mem_cons] at h
    push_neg at h
    have hne : b.utime ≠ ts := fun e => h.1 e.symm
    simp only [updateLast, ih h.2, if_neg hne]

lemma bumpAt_of_not_mem (ts : Int) (m : String) :
    ∀ bs : List Bucket, ts ∉ utimes bs → bumpAt ts m bs = bs := by
  intro bs
  induction bs with
  | nil => intro _; rfl
  | cons b tl ih =>
    intro h
    rw [utimes_cons, List.mem_cons] at h
    push_neg at h
    have hne : b.utime ≠ ts := fun e => h.1 e.symm
    rw [bumpAt_cons, if_neg hne, ih h.2]

lemma updateLast_of_mem (ts : Int) (m : String) :
    ∀ bs : List Bucket, (utimes bs).Nodup → ts ∈ utimes bs →
      updateLast ts m bs = some (bumpAt ts m bs) := by
  intro bs
  induction bs with
  | nil => intro _ h; cases h
  | cons b tl ih =>
    intro hnd hmem
    rw [utimes_cons] at hnd hmem
    have hnd1 : b.utime ∉ utimes tl := (List.nodup_cons.mp hnd).1
    have hnd2 : (utimes tl).Nodup := (List.nodup_cons.mp hnd).2
    by_cases hb : b.utime = ts
    · have htl : ts ∉ utimes tl := hb ▸ hnd1
      rw [bumpAt_cons, if_pos hb, bumpAt_of_not_mem ts m tl htl]
      simp only [updateLast, updateLast_of_not_mem ts m tl htl, if_pos hb]
    · have htl : ts ∈ utimes tl := by
        rcases List.mem_cons.mp hmem with h | h
        · exact absurd h.symm hb
        · exact h
      rw [bumpAt_cons, if_neg hb]
      simp only [updateLast, ih hnd2 htl]

lemma utimes_bumpAt (ts : Int) (m : String) (bs : List Bucket) :
    utimes (bumpAt ts m bs) = utimes bs := by
  simp only [utimes, bumpAt, List.map_map]
  apply List.map_congr_left
  intro b _
  by_cases hb : b.utime = ts <;> simp [hb]

lemma updateLast_some_mem (ts : Int) (m : String) :
    ∀ bs bs2 : List Bucket, updateLast ts m bs = some bs2 →
      ∃ b, b ∈ bs2 ∧ b.utime = ts ∧ m ∈ b.msgs := by
  intro bs
  induction bs with
  | nil => intro bs2 h; cases h
  | cons b tl ih =>
    intro bs2 h
    simp only [updateLast] at h
    cases htl : updateLast ts m tl with
    | some tl2 =>
      rw [htl] at h
      obtain ⟨w, hw1, hw2⟩ := ih tl2 htl
      exact ⟨w, by rw [← Option.some_inj.mp h]; exact List.mem_cons_of_mem b hw1, hw2⟩
    | none =>
      rw [htl] at h
      by_cases hb : b.utime = ts
      · rw [if_pos hb] at h
        refine ⟨{ b with count := b.count + 1, msgs := b.msgs ++ [m] }, ?_, hb, ?_⟩
        · rw [← Option.some_inj.mp h]; exact List.mem_cons_self _ _
        · simp
      · rw [if_neg hb] at h; cases h

lemma increment_records (bs : List Bucket) (ts : Int) (m : String) :
    ∃ b, b ∈ Counter.Increment bs ts m ∧ b.utime = ts ∧ m ∈ b.msgs := by
  unfold Counter.Increment
  cases h : updateLast ts m bs with
  | some bs2 => exact updateLast_some_mem ts m bs bs2 h
  | none => exact ⟨⟨ts, 1, [m]⟩, by simp, rfl, by simp⟩

/-- C2: `Increment` preserves the one-bucket-per-timestamp invariant; on a
store satisfying it, a record whose timestamp already has a bucket bumps
exactly that bucket (count + 1, message appended in place), a fresh timestamp
appends a new bucket of count 1, and two records with the identical timestamp
on a fresh store yield one bucket with count 2 holding both messages in
arrival order. -/
theorem c2_increment_merges (bs : List Bucket) (ts : Int) (m m2 : String)
    (h : OneBucketPerTs bs) :
    OneBucketPerTs (Counter.Increment bs ts m)
    ∧ (ts ∈ utimes bs → Counter.Increment bs ts m = bumpAt ts m bs)
    ∧ (ts ∉ utimes bs → Counter.Increment bs ts m = bs ++ [⟨ts, 1, [m]⟩])
    ∧ Counter.Increment (Counter.Increment [] ts m) ts m2 = [⟨ts, 2, [m, m2]⟩] := by
  unfold OneBucketPerTs at h
  refine ⟨?_, ?_, ?_, ?_⟩
  · by_cases hmem : ts ∈ utimes bs
    · unfold Counter.Increment
      rw [updateLast_of_mem ts m bs h hmem]
      unfold OneBucketPerTs
      rw [utimes_bumpAt]
      exact h
    · unfold Counter.Increment
      rw [updateLast_of_not_mem ts m bs hmem]
      unfold OneBucketPerTs
      simp only [utimes, List.map_append, List.map_cons, List.map_nil]
      rw [List.nodup_append]
      exact ⟨h, List.nodup_singleton ts, by
        intro a ha hb
        simp only [List.mem_singleton] at hb
        exact hmem (hb ▸ ha)⟩
  · intro hmem
    unfold Counter.Increment
    rw [updateLast_of_mem ts m bs h hmem]
  · intro hmem
    unfold Counter.Increment
    rw [updateLast_of_not_mem ts m bs hmem]
  · simp [Counter.Increment, updateLast]

/-- C2 witness: the invariant hypothesis holds of the one-bucket store
`[⟨5, 1, [x]⟩]` and the conclusion follows at that store for timestamp 5. -/
theorem c2_increment_merges_witness :
    OneBucketPerTs [⟨5, 1, ["x"]⟩]
    ∧ (OneBucketPerTs (Counter.Increment [⟨5, 1, ["x"]⟩] 5 "a")
      ∧ ((5 : Int) ∈ utimes [⟨5, 1, ["x"]⟩] →
          Counter.Increment [⟨5, 1, ["x"]⟩] 5 "a" = bumpAt 5 "a" [⟨5, 1, ["x"]⟩])
      ∧ ((5 : Int) ∉ utimes [⟨5, 1, ["x"]⟩] →
          Counter.Increment [⟨5, 1, ["x"]⟩] 5 "a" = [⟨5, 1, ["x"]⟩] ++ [⟨5, 1, ["a"]⟩])
      ∧ Counter.Increment (Counter.Increment [] 5 "a") 5 "b" = [⟨5, 2, ["a", "b"]⟩]) :=
  ⟨by unfold OneBucketPerTs; decide,
    c2_increment_merges [⟨5, 1, ["x"]⟩] 5 "a" "b" (by unfold OneBucketPerTs; decide)⟩

/-- C1: the evaluation of `Count` at the failing input.  With a single stale
bucket (timestamp 0) and window boundary `now - window = 5`, the scan loop
never fires, `idx` keeps its initial value 0, nothing is discarded, and the
returned count is 1 — where the claim requires the count 0 and an empty
store (every bucket lies at or before the boundary). -/
theorem c1_count_keeps_stale_buckets :
    Counter.Count [⟨0, 1, ["m"]⟩] 5 = ([⟨0, 1, ["m"]⟩], 1) := by decide


lemma goFindIdx_eq_some (p : Bucket → Bool) :
    ∀ (l : List Bucket) (i : Nat), goFindIdx p l = some i →
      ∃ b t, l.drop i = b :: t ∧ p b = true := by
  intro l
  induction l with
  | nil => intro i h; cases h
  | cons x tl ih =>
    intro i h
    simp only [goFindIdx] at h
    by_cases hx : p x
    · rw [if_pos hx] at h
      cases h
      exact ⟨x, tl, rfl, hx⟩
    · rw [if_neg hx] at h
      cases h2 : goFindIdx p tl with
      | none => rw [h2] at h; cases h
      | some j =>
        rw [h2] at h
        have h3 : j + 1 = i := by simpa using h
        obtain ⟨b, t, hdrop, hpb⟩ := ih j h2
        refine ⟨b, t, ?_, hpb⟩
        rw [← h3]
        simpa using hdrop

/-- C8: `Count` is idempotent for a fixed clock: calling it again on the
store it just produced, with the same window boundary, returns the very same
store and the very same count — after one call either every surviving bucket
is strictly inside the window or the store was left untouched because no
bucket was, so the second scan discards nothing further and sums the same
counts. -/
theorem c8_count_idempotent (bs : List Bucket) (timeSince : Int) :
    Counter.Count (Counter.Count bs timeSince).1 timeSince
      = Counter.Count bs timeSince := by
  have cdef : ∀ l : List Bucket, Counter.Count l timeSince =
      ((l.insertionSort bucketLe).drop
          ((goFindIdx (inWindow timeSince) (l.insertionSort bucketLe)).getD 0),
        sumCounts ((l.insertionSort bucketLe).drop
          ((goFindIdx (inWindow timeSince) (l.insertionSort bucketLe)).getD 0))) :=
    fun _ => rfl
  have cfst : (Counter.Count bs timeSince).1 =
      (bs.insertionSort bucketLe).drop
        ((goFindIdx (inWindow timeSince) (bs.insertionSort bucketLe)).getD 0) := rfl
  have hsorted : List.Sorted bucketLe (bs.insertionSort bucketLe) :=
    List.sorted_insertionSort bucketLe bs
  have hkSorted : List.Sorted bucketLe ((Counter.Count bs timeSince).1) := by
    rw [cfst]
    exact hsorted.sublist (List.drop_sublist _ _)
  have hsortkept : ((Counter.Count bs timeSince).1).insertionSort bucketLe
      = (Counter.Count bs timeSince).1 := hkSorted.insertionSort_eq
  have hfk : (goFindIdx (inWindow timeSince) ((Counter.Count bs timeSince).1)).getD 0
      = 0 := by
    rw [cfst]
    cases h : goFindIdx (inWindow timeSince) (bs.insertionSort bucketLe) with
    | none =>
      have hg : ((none : Option Nat).getD 0) = 0 := rfl
      rw [hg]
      rw [List.drop_zero]
      rw [h]
      rfl
    | some i =>
      obtain ⟨b, t2, hdrop, hpb⟩ := goFindIdx_eq_some _ _ i h
      have hg : ((some i).getD 0) = i := rfl
      rw [hg]
      rw [hdrop]
      simp [goFindIdx, hpb]
  rw [cdef ((Counter.Count bs timeSince).1), hsortkept, hfk]
  simp only [List.drop_zero]
  rfl

/-- C4: for a meditate command received while the actor is not paused, the
reply is determined by the parsed duration exactly as claimed: parse failure
gives the misunderstanding reply, a negative duration the going-back reply, a
duration of one hour or more the too-long reply, and any other duration is
accepted with the okay reply (the pause end moving to now plus the duration
and the deferred clear being scheduled); no other outcome occurs since the
four cases are exhaustive. -/
theorem c4_meditate_replies (medEnd nowNs : Int) (text cap : List Char)
    (hfind : meditateFind text = some cap)
    (hnp : medEnd - nowNs ≤ 0) :
    (parseGoDuration cap = none →
      askToMeditate medEnd nowNs text =
        ⟨"Sorry, I don\x27t understand you.", medEnd, none⟩)
    ∧ (∀ d, parseGoDuration cap = some d → d < 0 →
      askToMeditate medEnd nowNs text =
        ⟨"Sorry, going back in time is not what I can do.", medEnd, none⟩)
    ∧ (∀ d, parseGoDuration cap = some d → hourNs ≤ d →
      askToMeditate medEnd nowNs text =
        ⟨"It\x27s hard to meditate for more than an hour at one go you know.",
          medEnd, none⟩)
    ∧ (∀ d, parseGoDuration cap = some d → 0 ≤ d → d < hourNs →
      askToMeditate medEnd nowNs text =
        ⟨"Okay, I am going to meditate for " ++ goDurationString d,
          nowNs + d, some d⟩) := by
  have hH : hourNs = 3600000000000 := rfl
  refine ⟨?_, ?_, ?_, ?_⟩
  · intro hp
    simp only [askToMeditate, hfind, hp]
  · intro d hp hd
    simp only [askToMeditate, hfind, hp]
    rw [if_pos hd]
  · intro d hp hd
    have hd0 : ¬ d < 0 := by rw [hH] at hd; omega
    simp only [askToMeditate, hfind, hp]
    rw [if_neg hd0, if_pos hd]
  · intro d hp hd0 hdh
    have h1 : ¬ d < 0 := by omega
    have h2 : ¬ hourNs ≤ d := by rw [hH]; rw [hH] at hdh; omega
    have h3 : ¬ 0 < medEnd - nowNs := by omega
    simp only [askToMeditate, hfind, hp]
    rw [if_neg h1, if_neg h2, if_neg h3]

/-- C4 witness: the accepted branch of the theorem at the concrete command
text `wisemonk meditate for 5m` with a never-paused actor. -/
theorem c4_meditate_replies_witness :
    askToMeditate 0 0 ("wisemonk meditate for 5m".toList)
      = ⟨"Okay, I am going to meditate for 5m0s", 300000000000,
          some 300000000000⟩ := by
  have h := (c4_meditate_replies 0 0 ("wisemonk meditate for 5m".toList)
    ("5m".toList) (by decide) (by decide)).2.2.2 300000000000
    (by decide) (by decide) (by decide)
  exact h.trans (by decide)

/-- C10: a meditate command with duration exactly zero, received while the
actor is not paused, is accepted rather than rejected: the reply is
`Okay, I am going to meditate for 0s`, the pause end becomes now, and the
deferred clearing of the bucket store is scheduled with zero delay. -/
theorem c10_zero_duration_accepted (medEnd nowNs : Int)
    (hnp : medEnd - nowNs ≤ 0) :
    askToMeditate medEnd nowNs ("wisemonk meditate for 0s".toList)
      = ⟨"Okay, I am going to meditate for 0s", nowNs, some 0⟩ := by
  have hfind : meditateFind ("wisemonk meditate for 0s".toList)
      = some ("0s".toList) := by decide
  have hp : parseGoDuration ("0s".toList) = some 0 := by decide
  have h3 : ¬ (0:Int) < medEnd - nowNs := by omega
  simp only [askToMeditate, hfind, hp]
  rw [if_neg (by decide : ¬ (0:Int) < 0)]
  rw [if_neg (by decide : ¬ hourNs ≤ (0:Int))]
  rw [if_neg h3]
  have hs : "Okay, I am going to meditate for " ++ goDurationString 0
      = "Okay, I am going to meditate for 0s" := by decide
  rw [hs, add_zero]

/-- C10 witness: the zero-duration acceptance at clock zero. -/
theorem c10_zero_duration_accepted_witness :
    askToMeditate 0 0 ("wisemonk meditate for 0s".toList)
      = ⟨"Okay, I am going to meditate for 0s", 0, some 0⟩ :=
  c10_zero_duration_accepted 0 0 (by decide)

/-- C5: while the pause timestamp lies in the future every periodic tick is a
no-op — the store is neither compacted nor cleared, the pause timestamp is
unchanged and no notification fires — and every message handled during the
pause is nevertheless still recorded: afterwards the store holds a bucket
with the message timestamp containing the formatted line. -/
theorem c5_paused_tick_noop_messages_recorded :
    (∀ (bs : List Bucket) (medEnd nowNs timeSince : Int) (maxMsg : Nat),
      0 < medEnd - nowNs →
      tick bs medEnd nowNs timeSince maxMsg = ((bs, medEnd), false))
    ∧ (∀ (o : Oracles) (bs : List Bucket) (medEnd nowNs : Int)
        (text : List Char) (ts : Int) (fm : String),
      ∃ b, b ∈ (handleMessage o bs medEnd nowNs text ts fm).buckets
        ∧ b.utime = ts ∧ fm ∈ b.msgs) := by
  constructor
  · intro bs medEnd nowNs timeSince maxMsg h
    unfold tick
    rw [if_neg (by omega : ¬ medEnd - nowNs < 0)]
  · intro o bs medEnd nowNs text ts fm
    exact increment_records (createOut o bs text).1 ts fm

/-- C5 witness: a future pause timestamp (5 at clock 0) sees the tick return
the state unchanged without notifying, and a handled message lands in the
store of an actor with no collaborators configured. -/
theorem c5_paused_tick_noop_messages_recorded_witness :
    tick [] 5 0 0 0 = (([], 5), false)
    ∧ ∃ b, b ∈ (handleMessage ⟨"", fun _ _ => "", fun _ => ""⟩
        [] 0 0 [] 3 "m").buckets ∧ b.utime = 3 ∧ "m" ∈ b.msgs :=
  ⟨c5_paused_tick_noop_messages_recorded.1 [] 5 0 0 0 (by decide),
    c5_paused_tick_noop_messages_recorded.2 ⟨"", fun _ _ => "", fun _ => ""⟩
      [] 0 0 [] 3 "m"⟩

lemma lastSpaceIdx_none_not_mem :
    ∀ t : List Char, lastSpaceIdx t = none → ' ' ∉ t := by
  intro t
  induction t with
  | nil => intro _ h; cases h
  | cons c rest ih =>
    intro h
    simp only [lastSpaceIdx] at h
    cases h2 : lastSpaceIdx rest with
    | some j => rw [h2] at h; cases h
    | none =>
      rw [h2] at h
      by_cases hc : c = ' '
      · rw [if_pos hc] at h; cases h
      · intro hmem
        rcases List.mem_cons.mp hmem with he | hmem2
        · exact hc he.symm
        · exact ih h2 hmem2

lemma lastSpaceIdx_some_spec :
    ∀ (t : List Char) (i : Nat), lastSpaceIdx t = some i →
      i < t.length ∧ (∃ u, t.drop i = ' ' :: u) ∧ ' ' ∉ t.drop (i + 1) := by
  intro t
  induction t with
  | nil => intro i h; cases h
  | cons c rest ih =>
    intro i h
    simp only [lastSpaceIdx] at h
    cases h2 : lastSpaceIdx rest with
    | some j =>
      rw [h2] at h
      cases h
      obtain ⟨hlt, ⟨u, hd⟩, hafter⟩ := ih j h2
      refine ⟨by simpa using Nat.succ_lt_succ hlt, ⟨u, by simpa using hd⟩, ?_⟩
      simpa using hafter
    | none =>
      rw [h2] at h
      by_cases hc : c = ' '
      · rw [if_pos hc] at h
        cases h
        refine ⟨by simp, ⟨rest, by simp [hc]⟩, ?_⟩
        simpa using lastSpaceIdx_none_not_mem rest h2
      · rw [if_neg hc] at h; cases h

lemma sanitizeTitle_mid (title : List Char)
    (h20 : 20 ≤ (goTrimSpaces title).length)
    (h100 : (goTrimSpaces title).length ≤ 100) :
    sanitizeTitle title =
      (match lastSpaceIdx (goTrimSpaces title) with
        | some idx => if 20 ≤ idx then (goTrimSpaces title).take idx
            else goTrimSpaces title
        | none => goTrimSpaces title) := by
  simp only [sanitizeTitle]
  rw [if_neg (by omega : ¬ (goTrimSpaces title).length < 20)]
  rw [if_neg (by omega : ¬ (goTrimSpaces title).length > 100)]

lemma take_ne_of_lt_length (t : List Char) (i : Nat) (h : i < t.length) :
    t.take i ≠ t := by
  intro he
  have hl := congrArg List.length he
  rw [List.length_take] at hl
  omega

/-- C6 counterexample: the claim says a trimmed title with length between 20
and 100 characters is returned unchanged, but `sanitizeTitle` applies the
word-boundary truncation unconditionally: the 27-character title
`Long title with word breaks` (its own trim) comes back shortened to
`Long title with word`. -/
theorem c6_sanitize_counterexample :
    goTrimSpaces ("Long title with word breaks".toList)
        = "Long title with word breaks".toList
    ∧ 20 ≤ ("Long title with word breaks".toList).length
    ∧ ("Long title with word breaks".toList).length ≤ 100
    ∧ sanitizeTitle ("Long title with word breaks".toList)
        ≠ "Long title with word breaks".toList
    ∧ sanitizeTitle ("Long title with word breaks".toList)
        = "Long title with word".toList := by
  refine ⟨by decide, by decide, by decide, by decide, by decide⟩

/-- C6 (amended): after trimming spaces, a title of length between 20 and 100
characters is returned unchanged exactly when it has no space at index 20 or
later; when its last space sits at index 20 or later it is truncated at that
space (the under-20 prefix branch and the over-100 cut are untouched by the
counterexample and keep their claimed behavior). -/
theorem c6_sanitize_amended (title : List Char)
    (h20 : 20 ≤ (goTrimSpaces title).length)
    (h100 : (goTrimSpaces title).length ≤ 100) :
    (sanitizeTitle title = goTrimSpaces title
      ↔ ' ' ∉ (goTrimSpaces title).drop 20)
    ∧ (∀ i, lastSpaceIdx (goTrimSpaces title) = some i → 20 ≤ i →
        sanitizeTitle title = (goTrimSpaces title).take i) := by
  have hmid := sanitizeTitle_mid title h20 h100
  constructor
  · cases h : lastSpaceIdx (goTrimSpaces title) with
    | none =>
      rw [hmid, h]
      apply iff_of_true rfl
      intro hmem
      exact lastSpaceIdx_none_not_mem _ h ((List.drop_sublist 20 _).subset hmem)
    | some i =>
      rw [hmid, h]
      have hred : (match some i with
          | some idx => if 20 ≤ idx then List.take idx (goTrimSpaces title)
              else goTrimSpaces title
          | none => goTrimSpaces title)
          = if 20 ≤ i then List.take i (goTrimSpaces title)
              else goTrimSpaces title := rfl
      rw [hred]
      obtain ⟨hlt, ⟨u, hdrop⟩, hafter⟩ := lastSpaceIdx_some_spec _ i h
      by_cases h20i : 20 ≤ i
      · rw [if_pos h20i]
        apply iff_of_false (take_ne_of_lt_length _ i hlt)
        intro hnot
        apply hnot
        have hmem : ' ' ∈ (goTrimSpaces title).drop i := by
          rw [hdrop]
          exact List.mem_cons_self _ _
        have heq : (goTrimSpaces title).drop i
            = ((goTrimSpaces title).drop 20).drop (i - 20) := by
          rw [List.drop_drop]
          congr 1
          omega
        rw [heq] at hmem
        exact (List.drop_sublist _ _).subset hmem
      · rw [if_neg h20i]
        apply iff_of_true rfl
        intro hmem
        apply hafter
        have heq : (goTrimSpaces title).drop 20
            = ((goTrimSpaces title).drop (i + 1)).drop (20 - (i + 1)) := by
          rw [List.drop_drop]
          congr 1
          omega
        rw [heq] at hmem
        exact (List.drop_sublist _ _).subset hmem
  · intro i h h20i
    rw [hmid, h]
    have hred : (match some i with
        | some idx => if 20 ≤ idx then List.take idx (goTrimSpaces title)
            else goTrimSpaces title
        | none => goTrimSpaces title)
        = if 20 ≤ i then List.take i (goTrimSpaces title)
            else goTrimSpaces title := rfl
    rw [hred, if_pos h20i]

/-- C6 witness: the 20-character title of the unit tests, which has no space
at index 20 or later, comes back from `sanitizeTitle` unchanged. -/
theorem c6_sanitize_amended_witness :
    sanitizeTitle ("This title is 20char".toList)
      = goTrimSpaces ("This title is 20char".toList) :=
  (c6_sanitize_amended ("This title is 20char".toList)
    (by decide) (by decide)).1.mpr (by decide)

lemma lastSpaceDigitAux_digit :
    ∀ (l : List Char) (i : Nat) (p : Nat × Char),
      lastSpaceDigitAux l i = some p → isDigitCh p.2 = true := by
  intro l
  induction l with
  | nil => intro i p h; cases h
  | cons c1 rest ih =>
    intro i p h
    cases rest with
    | nil => cases h
    | cons c2 rest2 =>
      simp only [lastSpaceDigitAux] at h
      cases h2 : lastSpaceDigitAux (c2 :: rest2) (i + 1) with
      | some r =>
        rw [h2] at h
        obtain rfl : r = p := Option.some_inj.mp h
        exact ih (i + 1) _ h2
      | none =>
        rw [h2] at h
        by_cases hcond : c1 = ' ' ∧ isDigitCh c2 = true ∧ 1 ≤ i
        · rw [if_pos hcond] at h
          obtain rfl : (i, c2) = p := Option.some_inj.mp h
          exact hcond.2.1
        · rw [if_neg hcond] at h; cases h

lemma querySplit_digit (r q : List Char) (d : Char)
    (h : querySplit r = some (q, d)) : isDigitCh d = true := by
  simp only [querySplit] at h
  cases h2 : lastSpaceDigitAux (r.takeWhile (fun c => c != '\n')) 0 with
  | none => rw [h2] at h; cases h
  | some jd =>
    rw [h2] at h
    have hsnd : jd.2 = d :=
      congrArg Prod.snd (Option.some_inj.mp h)
    exact hsnd ▸ lastSpaceDigitAux_digit _ 0 jd h2

lemma queryFind_digit :
    ∀ (s q : List Char) (d : Char),
      queryFind s = some (q, d) → isDigitCh d = true := by
  intro s
  induction s with
  | nil => intro q d h; cases h
  | cons c rest ih =>
    intro q d h
    simp only [queryFind] at h
    by_cases hpre : queryLit.isPrefixOf (c :: rest) = true
    · rw [if_pos hpre] at h
      cases h2 : querySplit ((c :: rest).drop queryLit.length) with
      | some r =>
        rw [h2] at h
        obtain rfl : r = (q, d) := Option.some_inj.mp h
        exact querySplit_digit _ q d h2
      | none =>
        rw [h2] at h
        exact ih q d h
    · rw [if_neg hpre] at h
      exact ih q d h

lemma isDigitCh_bounds (d : Char) (hd : isDigitCh d = true) :
    48 ≤ d.toNat ∧ d.toNat ≤ 57 := by
  simpa [isDigitCh, Bool.and_eq_true, decide_eq_true_iff] using hd

lemma goAtoi_single_digit (d : Char) (hd : isDigitCh d = true) :
    goAtoi [d] = some ((digitVal d : Nat) : Int) ∧ digitVal d ≤ 9 := by
  obtain ⟨h48, h57⟩ := isDigitCh_bounds d hd
  have hb : digitVal d ≤ 9 := by unfold digitVal; omega
  refine ⟨?_, hb⟩
  have hminus : ¬ d = '-' := by
    intro he; rw [he] at hd; exact absurd hd (by decide)
  have hplus : ¬ d = '+' := by
    intro he; rw [he] at hd; exact absurd hd (by decide)
  simp only [goAtoi]
  rw [if_neg hminus, if_neg hplus]
  have hle : digitVal d ≤ 9223372036854775807 := by omega
  simp [hd, hle]

/-- C9 (amended): the result-count capture of `queryRegex` is always a single
decimal digit, so `strconv.Atoi` on it always succeeds with a value between 0
and 9 and the integer-parse-failure reply branch of `searchDiscourse` is
unreachable.  (The multi-digit part of the original claim is corrected by the
counterexample: surplus digits fall outside the match entirely instead of
being absorbed into the query.) -/
theorem c9_search_bound_single_digit (dk : String) (text : List Char) :
    searchDiscourse dk text ≠ SearchAction.parseFail
    ∧ (∀ q n, searchDiscourse dk text = SearchAction.search q n →
        0 ≤ n ∧ n ≤ 9) := by
  by_cases hk : dk = ""
  · have hv : searchDiscourse dk text = SearchAction.noop := by
      simp only [searchDiscourse, hk, if_true]
    rw [hv]
    exact ⟨by simp, fun q n h => by cases h⟩
  · cases hq : queryFind text with
    | none =>
      have hv : searchDiscourse dk text = SearchAction.noop := by
        simp only [searchDiscourse, hk, hq, if_false]
      rw [hv]
      exact ⟨by simp, fun q n h => by cases h⟩
    | some qd =>
      have hd : isDigitCh qd.2 = true :=
        queryFind_digit text qd.1 qd.2 (by rw [hq])
      obtain ⟨ha, hb⟩ := goAtoi_single_digit qd.2 hd
      have hv : searchDiscourse dk text
          = SearchAction.search qd.1 ((digitVal qd.2 : Nat) : Int) := by
        simp only [searchDiscourse, hk, hq, ha, if_false]
      rw [hv]
      refine ⟨by simp, fun q n h => ?_⟩
      cases h
      exact ⟨Int.natCast_nonneg _, by exact_mod_cast hb⟩

/-- C9 witness: on `wisemonk query foo 3` with a configured key the action is
a search with bound 3, which the theorem places between 0 and 9. -/
theorem c9_search_bound_single_digit_witness :
    searchDiscourse "k" ("wisemonk query foo 3".toList)
        ≠ SearchAction.parseFail
    ∧ (0 ≤ (3 : Int) ∧ (3 : Int) ≤ 9) :=
  ⟨(c9_search_bound_single_digit "k" ("wisemonk query foo 3".toList)).1,
    (c9_search_bound_single_digit "k" ("wisemonk query foo 3".toList)).2
      ("foo".toList) 3 (by decide)⟩

/-- C9 counterexample: the claim says a multi-digit count has all but its
final digit absorbed into the query text, so `wisemonk query foo 123` would
capture query `foo 12` and bound 3.  The greedy first group actually requires
a space immediately before the bound digit: the only space-digit position
gives query `foo` and bound 1, and the trailing `23` falls outside the match
altogether. -/
theorem c9_multidigit_counterexample :
    queryFind ("wisemonk query foo 123".toList)
        = some ("foo".toList, '1')
    ∧ queryFind ("wisemonk query foo 123".toList)
        ≠ some ("foo 12".toList, '3') := by
  refine ⟨by decide, by decide⟩

lemma sendMessage_eq (bs : List Bucket) (discKey : String)
    (createUrl : List Char → String) (yoda proverb : String) :
    sendMessage bs discKey createUrl yoda proverb =
      if discKey = "" then some ([], [yodaMsg yoda proverb ""])
      else
        match bs with
        | [] => none
        | b :: _ =>
          match b.msgs with
          | [] => none
          | m0 :: _ =>
            some ([], [yodaMsg yoda proverb
              (if createUrl (sanitizeTitle m0.toList) ≠ "" then
                "Please move your discussion to " ++ createUrl (sanitizeTitle m0.toList)
              else "")]) := by
  unfold sendMessage callYoda
  by_cases hk : discKey = ""
  · rw [if_pos hk]
  · rw [if_neg hk]

/-- C7: whenever `sendMessage` completes, the bucket store afterwards is
empty and exactly one outbound message — a `callYoda` message — was sent;
when no Discourse key is configured, or when `createTopic` failed and
returned an empty URL for the title built from the first stored message, the
closing line inside that single message is empty: the alert is still sent and
carries no archive link. -/
theorem c7_alert_once_clear_fallback (bs : List Bucket) (discKey : String)
    (createUrl : List Char → String) (yoda proverb : String)
    (r : List Bucket × List String)
    (h : sendMessage bs discKey createUrl yoda proverb = some r) :
    r.1 = [] ∧ (∃ m, r.2 = [yodaMsg yoda proverb m])
    ∧ (discKey = "" → r.2 = [yodaMsg yoda proverb ""])
    ∧ (∀ b0 tl m0 ms, bs = b0 :: tl → b0.msgs = m0 :: ms →
        createUrl (sanitizeTitle m0.toList) = "" →
        r.2 = [yodaMsg yoda proverb ""]) := by
  rw [sendMessage_eq] at h
  by_cases hk : discKey = ""
  · rw [if_pos hk] at h
    obtain rfl : ([], [yodaMsg yoda proverb ""]) = r := Option.some_inj.mp h
    exact ⟨rfl, ⟨"", rfl⟩, fun _ => rfl, fun b0 tl m0 ms _ _ _ => rfl⟩
  · rw [if_neg hk] at h
    cases bs with
    | nil => cases h
    | cons b tl =>
      have h3 : (match b.msgs with
          | [] => none
          | m0 :: _ => some (([] : List Bucket), [yodaMsg yoda proverb
              (if createUrl (sanitizeTitle m0.toList) ≠ "" then
                "Please move your discussion to " ++ createUrl (sanitizeTitle m0.toList)
              else "")])) = some r := h
      cases hm : b.msgs with
      | nil => rw [hm] at h3; cases h3
      | cons m0 ms =>
        rw [hm] at h3
        have h2 : (([] : List Bucket), [yodaMsg yoda proverb
            (if createUrl (sanitizeTitle m0.toList) ≠ "" then
              "Please move your discussion to " ++ createUrl (sanitizeTitle m0.toList)
            else "")]) = r := Option.some_inj.mp h3
        obtain rfl := h2
        refine ⟨rfl, ⟨_, rfl⟩, fun hk2 => absurd hk2 hk, ?_⟩
        intro b0 tl2 m02 ms2 hb hms hurl
        injection hb with hb1 hb2
        rw [← hb1] at hms
        rw [hm] at hms
        injection hms with hm1 hm2
        rw [← hm1] at hurl
        simp only [String.toList] at hurl
        simp [hurl]

/-- C7 witness: with no Discourse key the alert on a one-bucket store is a
single yoda message with the empty closing line and the store comes back
empty. -/
theorem c7_alert_once_clear_fallback_witness :
    (([], [yodaMsg "Y" "P" ""]) : List Bucket × List String).1 = [] :=
  (c7_alert_once_clear_fallback [⟨0, 1, ["hello"]⟩] "" (fun _ => "") "Y" "P"
    ([], [yodaMsg "Y" "P" ""]) (by decide)).1

/-- C3 counterexample: the text `wisemonk query wisemonk create topic x 3`
matches both the search pattern and the archive pattern.  The claim says
exactly one intent — the first in priority order — is acted upon and the
other matching patterns cause no action or state change; the dispatch loop
instead acts on both, sending the search reply and the topic announcement
(two outbound messages, and the archive match also clears the store). -/
theorem c3_priority_counterexample :
    (handleMessage ⟨"k", fun _ _ => "SEARCHED", fun _ => "URL"⟩ [] 0 0
        ("wisemonk query wisemonk create topic x 3".toList) 7 "f").outbound
      = ["SEARCHED", "New topic created with url: URL"] := by decide

/-- C3 (amended): the three command patterns are checked independently, in
the fixed source order search, archive, pause, and every matching pattern is
acted upon.  For a message matching the search and archive patterns but not
the pause pattern (with a Discourse key configured), both replies are sent in
that order, the archive match clears the store before the message itself is
recorded into the emptied store, and the pause state is untouched. -/
theorem c3_amended_all_matching_act (o : Oracles) (bs : List Bucket)
    (medEnd nowNs : Int) (text : List Char) (ts : Int) (fm : String)
    (q : List Char) (dch : Char) (n : Int) (title : List Char)
    (hk : o.discKey ≠ "")
    (hq : queryFind text = some (q, dch))
    (hn : goAtoi [dch] = some n)
    (hc : createFind text = some title)
    (hm : meditateFind text = none) :
    handleMessage o bs medEnd nowNs text ts fm =
      ⟨Counter.Increment [] ts fm, medEnd,
        [o.searchOut q n,
          "New topic created with url: " ++ o.createUrl (sanitizeTitle title)],
        none⟩ := by
  have hsd : searchDiscourse o.discKey text = SearchAction.search q n := by
    simp only [searchDiscourse, hk, hq, hn, if_false]
  have hsm : searchMsgs o text = [o.searchOut q n] := by
    simp only [searchMsgs, hsd]
  have hco : createOut o bs text
      = ([], ["New topic created with url: " ++ o.createUrl (sanitizeTitle title)]) := by
    simp only [createOut, hk, hc, if_false]
  have hmo : askToMeditate medEnd nowNs text = ⟨"", medEnd, none⟩ := by
    simp only [askToMeditate, hm]
  simp only [handleMessage, hsm, hco, hmo]
  simp

/-- C3 witness: the amended theorem applied to the doubly-matching message of
the counterexample, showing the full handling result. -/
theorem c3_amended_all_matching_act_witness :
    handleMessage ⟨"k", fun _ _ => "SEARCHED", fun _ => "URL"⟩ [] 0 0
        ("wisemonk query wisemonk create topic x 3".toList) 7 "f"
      = ⟨[⟨7, 1, ["f"]⟩], 0,
          ["SEARCHED", "New topic created with url: URL"], none⟩ := by
  have h := c3_amended_all_matching_act
    ⟨"k", fun _ _ => "SEARCHED", fun _ => "URL"⟩ [] 0 0
    ("wisemonk query wisemonk create topic x 3".toList) 7 "f"
    ("wisemonk create topic x".toList) '3' 3 ("x 3".toList)
    (by decide) (by decide) (by decide) (by decide) (by decide)
  exact h.trans (by decide)
